import Mathlib

/-!
Verification of the TypeTutor Racer core (race simulation and typing
evaluation engine) against its natural-language specification.

The JavaScript source is embedded shallowly: strings become `List Char`,
JavaScript numbers become `ℚ` (exact rational arithmetic), fallible
lookups become `Option`.  Each definition mirrors one function or code
block of the source.
-/

/-- A JavaScript number in this embedding: exact rational arithmetic. -/
abbrev JsNum := ℚ

/-- Math.round, modelled exactly: floor of x + 1/2 (round half up). -/
def jsRound (q : ℚ) : ℤ := (q + 1/2).floor

/-- Source `calcWPM(correctChars, elapsedMs)`:
`if (!elapsedMs) return 0; return Math.round(((correctChars / 5) / (elapsedMs / 60000)) * 10) / 10;` -/
def calcWPM (correctChars elapsedMs : ℚ) : ℚ :=
  if elapsedMs = 0 then 0
  else (jsRound (correctChars / 5 / (elapsedMs / 60000) * 10) : ℚ) / 10

/-- One word-level verdict, source object `{ word, typed, correct, timestamp }`
(the timestamp plays no role in any verified property and is omitted). -/
structure WordResult where
  word : List Char
  typed : List Char
  correct : Bool
  deriving Repr, DecidableEq

/-- Source `correctWords`: `wordResults.filter(result => result.correct).length`. -/
def correctWords (wordResults : List WordResult) : ℕ :=
  (wordResults.filter (fun r => r.correct)).length

/-- Source `accuracy` memo:
`if (wordResults.length === 0) return 100; return Math.round((correctWords / wordResults.length) * 100);` -/
def accuracy (wordResults : List WordResult) : ℤ :=
  if wordResults.length = 0 then 100
  else jsRound ((correctWords wordResults : ℚ) / (wordResults.length : ℚ) * 100)

/-- Source `errors` memo: `wordResults.filter(result => !result.correct).length`. -/
def errors (wordResults : List WordResult) : ℕ :=
  (wordResults.filter (fun r => !r.correct)).length

/-- The whitespace class of JavaScript regular expressions and of
String.prototype.trim: space, tab, line terminators, NBSP, the Unicode
space separators, and the BOM.  (U+2060 WORD JOINER is not whitespace.) -/
def isJsSpace (c : Char) : Bool :=
  c = ' ' || c = '\t' || c = '\n' || c.val = 11 || c.val = 12 || c = '\r' ||
  c.val = 0xA0 || c.val = 0x1680 || (0x2000 ≤ c.val && c.val ≤ 0x200A) ||
  c.val = 0x2028 || c.val = 0x2029 || c.val = 0x202F || c.val = 0x205F ||
  c.val = 0x3000 || c.val = 0xFEFF

/-- JavaScript `s.trim()`: strip the whitespace class from both ends. -/
def trimJs (s : List Char) : List Char :=
  ((s.dropWhile isJsSpace).reverse.dropWhile isJsSpace).reverse

/-- State of the typing evaluator held by the main component:
`currentWordIndex`, `currentTypedWord`, `wordResults`. -/
structure EvalState where
  currentWordIndex : ℕ
  currentTypedWord : List Char
  wordResults : List WordResult
  deriving Repr, DecidableEq

/-- The test `value.endsWith(' ') || value.endsWith('\t')` of `onType`. -/
def endsWithSep (value : List Char) : Bool :=
  value.getLast? = some ' ' || value.getLast? = some '\t'

/-- Source `onType` handler as a pure state transformer.  The `e.target.value`
write-backs only mirror `currentTypedWord` into the DOM and the race-finish
signal is handled by the controller, so the state transition is exactly:
commit a word on a trailing separator (when a truthy target word exists),
otherwise update the buffer, reverting the last character in strict mode
when it mismatches the expected character. -/
def onType (strict : Bool) (words : List (List Char)) (s : EvalState)
    (value : List Char) : EvalState :=
  if endsWithSep value then
    let typedWord := trimJs value.dropLast
    match words[s.currentWordIndex]? with
    | some targetWord =>
      if targetWord = [] then s  -- `if (targetWord)`: empty string is falsy
      else
        { currentWordIndex := s.currentWordIndex + 1
          currentTypedWord := []
          wordResults := s.wordResults ++
            [{ word := targetWord, typed := typedWord,
               correct := typedWord = targetWord }] }
    | none => s
  else
    if strict then
      let currentWord := (words[s.currentWordIndex]?).getD []
      if 0 < value.length then
        if (value.getLast? : Option Char) ≠ currentWord[value.length - 1]? then
          { s with currentTypedWord := value.dropLast }
        else
          { s with currentTypedWord := value }
      else
        { s with currentTypedWord := value }
    else
      { s with currentTypedWord := value }

/-- Source `completedCorrectChars`:
`wordResults.filter(r => r.correct).reduce((total, r) => total + r.word.length + 1, 0)`. -/
def completedCorrectChars (wordResults : List WordResult) : ℕ :=
  (wordResults.filter (fun r => r.correct)).foldl
    (fun total r => total + r.word.length + 1) 0

/-- The character-matching loop of the `correctChars` memo: walk both lists
in step, counting matches, and stop at the first mismatch (the `break`). -/
def matchingPrefixLen : List Char → List Char → ℕ
  | a :: as, b :: bs => if a = b then matchingPrefixLen as bs + 1 else 0
  | _, _ => 0

/-- Source `correctChars` memo: characters of completed correct words (plus
one separator each) plus matching leading characters of the current buffer
against `words[currentWordIndex] || ""`. -/
def correctChars (words : List (List Char)) (s : EvalState) : ℕ :=
  completedCorrectChars s.wordResults +
    matchingPrefixLen s.currentTypedWord ((words[s.currentWordIndex]?).getD [])

/-- A simulated opponent (source `makeBot`): fixed assigned WPM and current progress. -/
structure BotRacer where
  wpm : ℚ
  progress : ℚ
  deriving Repr, DecidableEq

/-- One step of the 100 ms bot-simulation interval for a single bot, with
the measured delta time `dt` (seconds) and the `Math.random()` sample `r`:
`if (b.progress >= text.length) return b;
 const cps = (b.wpm * 5) / 60;
 const jitter = 0.85 + Math.random() * 0.3;
 return { ...b, progress: Math.min(text.length, b.progress + cps * dt * jitter) }`. -/
def advanceBot (textLen : ℚ) (dt r : ℚ) (b : BotRacer) : BotRacer :=
  if b.progress ≥ textLen then b
  else
    { b with
      progress := min textLen (b.progress + b.wpm * 5 / 60 * dt * ((85:ℚ)/100 + r * (3/10))) }

/-- The trajectory of one bot over a sequence of ticks, each tick carrying
its measured delta time and its random jitter sample. -/
def botTrajectory (textLen : ℚ) (b : BotRacer) (ticks : List (ℚ × ℚ)) : List BotRacer :=
  ticks.scanl (fun b t => advanceBot textLen t.1 t.2 b) b

/-- The finish-detection effect:
`const humanDone = correctChars >= text.length;
 const anyBotDone = bots.some(b => b.progress >= text.length);
 if (humanDone || anyBotDone) { ... recordResult(humanDone); }`.
Returns `some humanDone` when the race finishes, `none` otherwise. -/
def finishCheck (correctChars textLen : ℕ) (bots : List BotRacer) : Option Bool :=
  let humanDone := decide (correctChars ≥ textLen)
  let anyBotDone := bots.any (fun b => decide (b.progress ≥ (textLen : ℚ)))
  if humanDone || anyBotDone then some humanDone else none

/-- The placing computation inside `recordResult(humanFinished)`:
`1 + bots.filter(b => b.progress >= text.length && !humanFinished).length`. -/
def recordPlacing (humanFinished : Bool) (textLen : ℕ) (bots : List BotRacer) : ℕ :=
  1 + (bots.filter (fun b => decide (b.progress ≥ (textLen : ℚ)) && !humanFinished)).length

/-- The history update of `endSession` (SessionTracker.jsx): the new summary
is prepended and the list is capped at 15 entries, newest first:
`[sessionSummary, ...history.sessions].slice(0, 15)`.
The summary payload type is irrelevant to the bound and left abstract. -/
def appendToHistory {α : Type} (sessionSummary : α) (sessions : List α) : List α :=
  (sessionSummary :: sessions).take 15

-- === Spec-side formulations (for refinement statements) ====================

/-- Spec-side formulation: a value rounded to one decimal place. -/
def roundedToOneDecimal (q : ℚ) : ℚ := (jsRound (q * 10) : ℚ) / 10

/-- Spec-side formulation of C7: the sum, over completed words scored
correct, of word length + 1, plus the length of the matching prefix of the
in-progress buffer against the current target word. -/
def specCorrectChars (words : List (List Char)) (s : EvalState) : ℕ :=
  ((s.wordResults.filter (fun r => r.correct)).map (fun r => r.word.length + 1)).sum +
    ((s.currentTypedWord.zip ((words[s.currentWordIndex]?).getD [])).takeWhile
      (fun p => decide (p.1 = p.2))).length

/-- Step 1, `replace(/\r\n/g, '\n')`: leftmost, non-overlapping. -/
def replCRLF : List Char → List Char
  | [] => []
  | [c] => [c]
  | c1 :: c2 :: rest =>
    if c1 = '\r' ∧ c2 = '\n' then '\n' :: replCRLF rest
    else c1 :: replCRLF (c2 :: rest)

/-- Step 2, `replace(/\r/g, '\n')`. -/
def mapCRtoNL (s : List Char) : List Char :=
  s.map fun c => if c = '\r' then '\n' else c

/-- Step 3, `replace(/\n{3,}/g, '\n\n')`: cap every maximal newline run at
two.  The counter carries the number of newlines already seen in the
current run. -/
def capNewlineRuns : ℕ → List Char → List Char
  | _, [] => []
  | k, c :: rest =>
    if c = '\n' then
      if k ≥ 2 then capNewlineRuns (k + 1) rest
      else '\n' :: capNewlineRuns (k + 1) rest
    else c :: capNewlineRuns 0 rest

/-- Step 4, `replace(/[ \t]+/g, ' ')`: each maximal space/tab run becomes
one space.  The flag records whether the previous character was in a run. -/
def collapseSpaceTab : Bool → List Char → List Char
  | _, [] => []
  | inRun, c :: rest =>
    if c = ' ' ∨ c = '\t' then
      if inRun then collapseSpaceTab true rest
      else ' ' :: collapseSpaceTab true rest
    else c :: collapseSpaceTab false rest

/-- Step 5, `replace(/ +\n/g, '\n')`: delete spaces that are followed,
through spaces only, by a newline. -/
def rmSpacesBeforeNL : List Char → List Char
  | [] => []
  | c :: rest =>
    if c = ' ' then
      match rmSpacesBeforeNL rest with
      | '\n' :: r => '\n' :: r
      | r => ' ' :: r
    else c :: rmSpacesBeforeNL rest

/-- Step 6, `replace(/\n +/g, '\n')`: delete space runs directly after a
newline.  The flag records whether we are right after a newline (possibly
through deleted spaces). -/
def rmSpacesAfterNL : Bool → List Char → List Char
  | _, [] => []
  | afterNL, c :: rest =>
    if c = '\n' then '\n' :: rmSpacesAfterNL true rest
    else if c = ' ' then
      if afterNL then rmSpacesAfterNL true rest
      else ' ' :: rmSpacesAfterNL false rest
    else c :: rmSpacesAfterNL false rest

/-- Step 7, `replace(/[""]/g, '"')`.  In the source file the character
class consists of the plain ASCII double quote twice (the intended curly
quotes are not present in the file), so the step maps the double quote to
itself. -/
def mapDoubleQuotes (s : List Char) : List Char :=
  s.map fun c => if c = '"' ∨ c = '"' then '"' else c

/-- Step 8, `replace(/['']/g, "'")`.  As in step 7 the character class
consists of the plain ASCII apostrophe twice, so the step maps the
apostrophe to itself. -/
def mapSingleQuotes (s : List Char) : List Char :=
  s.map fun c => if c = '\'' ∨ c = '\'' then '\'' else c

/-- Step 9, `replace(/…/g, '...')`. -/
def expandEllipsis : List Char → List Char
  | [] => []
  | c :: rest =>
    if c = '…' then '.' :: '.' :: '.' :: expandEllipsis rest
    else c :: expandEllipsis rest

/-- Step 10, em dash to a double hyphen. -/
def expandEmDash : List Char → List Char
  | [] => []
  | c :: rest =>
    if c = '—' then '-' :: '-' :: expandEmDash rest
    else c :: expandEmDash rest

/-- Step 11, en dash to a hyphen. -/
def mapEnDash (s : List Char) : List Char :=
  s.map fun c => if c = '–' then '-' else c

/-- Step 12, `replace(/ /g, ' ')`. -/
def mapNbsp (s : List Char) : List Char :=
  s.map fun c => if c = ' ' then ' ' else c

/-- Step 13, `replace(/⁠/g, '')`. -/
def rmWordJoiner (s : List Char) : List Char :=
  s.filter fun c => decide (c ≠ '⁠')

/-- Step 14, `replace(/﻿/g, '')`. -/
def rmBOM (s : List Char) : List Char :=
  s.filter fun c => decide (c ≠ '﻿')

/-- Step 16, `replace(/\s+/g, ' ')`: each maximal whitespace run becomes
one plain space. -/
def collapseWS : Bool → List Char → List Char
  | _, [] => []
  | inRun, c :: rest =>
    if isJsSpace c then
      if inRun then collapseWS true rest
      else ' ' :: collapseWS true rest
    else c :: collapseWS false rest

/-- The whole normalization chain of `cleanText` before the option blocks:
steps 1-14, then `.trim()` (step 15), then `replace(/\s+/g, ' ')`
(step 16). -/
def normalizeSteps (t : List Char) : List Char :=
  collapseWS false (trimJs (rmBOM (rmWordJoiner (mapNbsp (mapEnDash
    (expandEmDash (expandEllipsis (mapSingleQuotes (mapDoubleQuotes
      (rmSpacesAfterNL false (rmSpacesBeforeNL (collapseSpaceTab false
        (capNewlineRuns 0 (mapCRtoNL (replCRLF t)))))))))))))))

/-- Source `cleanText(t)` with no options: `if (!t) return ""` and the
normalization chain.  (The `beginner` option block is exercised by no
verified claim and is not modelled.) -/
def cleanText (t : List Char) : List Char :=
  if t = [] then [] else normalizeSteps t

/-- JavaScript `s.lastIndexOf(c)` on the character list, `none` if absent. -/
def lastIndexOfAux (c : Char) : List Char → Option ℕ
  | [] => none
  | a :: rest =>
    match lastIndexOfAux c rest with
    | some j => some (j + 1)
    | none => if a = c then some 0 else none

/-- JavaScript `s.lastIndexOf(c)`: the index of the last occurrence, or -1. -/
def lastIndexOf (c : Char) (s : List Char) : ℤ :=
  match lastIndexOfAux c s with
  | some i => (i : ℤ)
  | none => -1

/-- The `options.maxLength` block of `cleanText`: truncate over-long text,
preferring the last sentence-terminal punctuation inside the final 20% of
the allowed length and otherwise the last word boundary, falling back to a
hard cut.  `maxLength * 0.8` is exact in ℚ. -/
def truncateToMax (m : ℕ) (text : List Char) : List Char :=
  if m ≠ 0 ∧ m < text.length then
    let truncated := text.take m
    let lastSentence := lastIndexOf '.' truncated
    let lastQuestion := lastIndexOf '?' truncated
    let lastExclamation := lastIndexOf '!' truncated
    let lastPunctuation := max lastSentence (max lastQuestion lastExclamation)
    if (lastPunctuation : ℚ) > (m : ℚ) * (8/10) then
      trimJs (text.take (lastPunctuation.toNat + 1))
    else
      let lastSpace := lastIndexOf ' ' truncated
      trimJs (text.take (if 0 < lastSpace then lastSpace.toNat else m))
  else text

/-- Source `cleanText(t, { maxLength })`: the normalization chain followed
by the maxLength truncation block. -/
def cleanTextMax (t : List Char) (maxLength : ℕ) : List Char :=
  if t = [] then [] else truncateToMax maxLength (normalizeSteps t)

/-- The characters that the normalizer always eliminates and that are not
whitespace: ellipsis, em and en dash, word joiner. -/
def badChar (c : Char) : Bool :=
  c = '…' || c = '—' || c = '–' || c = '⁠'

/-- A fully normalized string: its only whitespace is the plain space, it
contains none of the eliminated characters, spaces never double up, and it
neither starts nor ends with a space. -/
def CleanStr (s : List Char) : Prop :=
  (∀ c ∈ s, (isJsSpace c = true → c = ' ') ∧ badChar c = false) ∧
  List.Chain' (fun a b => ¬(a = ' ' ∧ b = ' ')) s ∧
  (∀ c, s.head? = some c → c ≠ ' ') ∧
  (∀ c, s.getLast? = some c → c ≠ ' ')

-- === Theorems =============================================================

/-- The computable rounding function agrees with the mathematical floor. -/
theorem jsRound_eq_floor (q : ℚ) : jsRound q = ⌊q + 1/2⌋ := by
  rw [jsRound, Rat.floor_def, Rat.floor_def']

/-- Rounding half up lands within one half of the argument. -/
theorem abs_jsRound_sub_le (q : ℚ) : |(jsRound q : ℚ) - q| ≤ 1/2 := by
  rw [jsRound_eq_floor, abs_le]
  constructor
  · have h := Int.lt_floor_add_one (q + 1/2)
    push_cast at h ⊢
    linarith
  · have h := Int.floor_le (q + 1/2)
    push_cast at h ⊢
    linarith

/-- Folding `+ f r` from an accumulator is the accumulator plus the sum. -/
theorem foldl_add_eq_sum {α : Type} (f : α → ℕ) (l : List α) (acc : ℕ) :
    l.foldl (fun t r => t + f r) acc = acc + (l.map f).sum := by
  induction l generalizing acc with
  | nil => simp
  | cons r rest ih => simp [List.foldl_cons, ih, Nat.add_assoc]

/-- The match-counting loop counts the matching entries of the zipped lists
up to the first mismatch. -/
theorem matchingPrefixLen_eq_zip (a b : List Char) :
    matchingPrefixLen a b =
      ((a.zip b).takeWhile (fun p => decide (p.1 = p.2))).length := by
  induction a generalizing b with
  | nil => simp [matchingPrefixLen]
  | cons x xs ih =>
    cases b with
    | nil => simp [matchingPrefixLen]
    | cons y ys =>
      by_cases h : x = y
      · simp [matchingPrefixLen, h, List.zip_cons_cons, List.takeWhile_cons, ih]
      · simp [matchingPrefixLen, h, List.zip_cons_cons, List.takeWhile_cons]

/-- A buffer matching the whole target contributes the full word length. -/
theorem matchingPrefixLen_self (l : List Char) : matchingPrefixLen l l = l.length := by
  induction l with
  | nil => rfl
  | cons x xs ih => simp [matchingPrefixLen, ih]

-- === Claim theorems ========================================================

/-- C8: the per-race WPM computation returns 0 whenever the elapsed time is
0, and otherwise equals (correctChars/5) divided by the elapsed minutes,
rounded to one decimal place (hence within 1/20 of the exact value).
Being a total function on ℚ, it never raises an error. -/
theorem c8_calcWPM_zero_guard (cc e : ℚ) :
    calcWPM cc 0 = 0 ∧
    (e ≠ 0 →
      calcWPM cc e = roundedToOneDecimal (cc / 5 / (e / 60000)) ∧
      |calcWPM cc e - cc / 5 / (e / 60000)| ≤ 1/20) := by
  refine ⟨by simp [calcWPM], fun he => ⟨by simp [calcWPM, he, roundedToOneDecimal], ?_⟩⟩
  have h := abs_jsRound_sub_le (cc / 5 / (e / 60000) * 10)
  rw [calcWPM, if_neg he]
  set q : ℚ := cc / 5 / (e / 60000) with hq
  have : (jsRound (q * 10) : ℚ) / 10 - q = ((jsRound (q * 10) : ℚ) - q * 10) / 10 := by
    ring
  rw [this, abs_div]
  have h10 : |(10:ℚ)| = 10 := by norm_num
  rw [h10]
  linarith [abs_nonneg ((jsRound (q * 10) : ℚ) - q * 10)]

/-- C8 witness: at elapsed time 60000 ms and 25 correct characters the
guard hypothesis is satisfied and the rounded formula applies. -/
theorem c8_calcWPM_zero_guard_witness :
    calcWPM 25 0 = 0 ∧
    (calcWPM 25 60000 = roundedToOneDecimal (25 / 5 / (60000 / 60000)) ∧
      |calcWPM 25 60000 - 25 / 5 / (60000 / 60000)| ≤ 1/20) :=
  ⟨(c8_calcWPM_zero_guard 25 60000).1,
   (c8_calcWPM_zero_guard 25 60000).2 (by norm_num)⟩

/-- C6: accuracy equals round(100·correct/total) with 100 on an empty result
list, always lies between 0 and 100, and the scenario [false, true, true]
yields round(100·2/3) = 67. -/
theorem c6_accuracy_formula (rs : List WordResult) :
    accuracy rs =
      (if rs.length = 0 then 100
       else jsRound (100 * (correctWords rs : ℚ) / (rs.length : ℚ))) ∧
    0 ≤ accuracy rs ∧ accuracy rs ≤ 100 ∧
    accuracy [⟨[], [], false⟩, ⟨[], [], true⟩, ⟨[], [], true⟩] = 67 := by
  have hex : accuracy [⟨[], [], false⟩, ⟨[], [], true⟩, ⟨[], [], true⟩] = 67 := by
    have : correctWords [⟨[], [], false⟩, ⟨[], [], true⟩, ⟨[], [], true⟩] = 2 := by
      decide
    rw [accuracy, if_neg (by decide), this, jsRound_eq_floor]
    norm_num
  refine ⟨?_, ?_, ?_, hex⟩
  · rw [accuracy]
    by_cases h : rs.length = 0
    · simp [h]
    · rw [if_neg h, if_neg h]
      congr 1
      ring
  · rw [accuracy]
    by_cases h : rs.length = 0
    · simp [h]
    · rw [if_neg h, jsRound_eq_floor]
      have hq : (0:ℚ) ≤ (correctWords rs : ℚ) / (rs.length : ℚ) * 100 := by
        positivity
      have := Int.floor_le_floor (α := ℚ)
        (show (0:ℚ) ≤ (correctWords rs : ℚ) / (rs.length : ℚ) * 100 + 1/2 by linarith)
      simpa using this
  · rw [accuracy]
    by_cases h : rs.length = 0
    · simp [h]
    · rw [if_neg h, jsRound_eq_floor]
      have hlen : (0:ℚ) < (rs.length : ℚ) := by
        have : 0 < rs.length := Nat.pos_of_ne_zero h
        exact_mod_cast this
      have hcw : (correctWords rs : ℚ) ≤ (rs.length : ℚ) := by
        have : correctWords rs ≤ rs.length := List.length_filter_le _ _
        exact_mod_cast this
      have hq : (correctWords rs : ℚ) / (rs.length : ℚ) * 100 ≤ 100 := by
        have : (correctWords rs : ℚ) / (rs.length : ℚ) ≤ 1 :=
          (div_le_one hlen).mpr hcw
        linarith
      have h1 : ((correctWords rs : ℚ) / (rs.length : ℚ) * 100 + 1/2) ≤ 201/2 := by
        linarith
      have h2 := Int.floor_le_floor (α := ℚ) h1
      have h3 : ⌊(201/2 : ℚ)⌋ = 100 := by norm_num
      omega

/-- C7: for every evaluator state, `correctChars` equals the sum over
completed correct words of (word length + 1) plus the count of leading
buffer characters matching the target word, stopping at the first
mismatch. -/
theorem c7_correctChars_formula (words : List (List Char)) (s : EvalState) :
    correctChars words s = specCorrectChars words s := by
  rw [correctChars, specCorrectChars, completedCorrectChars]
  have hfun : (fun (total : ℕ) (r : WordResult) => total + r.word.length + 1) =
      fun (total : ℕ) (r : WordResult) => total + (r.word.length + 1) := by
    funext t r
    omega
  have hsum := foldl_add_eq_sum (fun r : WordResult => r.word.length + 1)
    (s.wordResults.filter (fun r => r.correct)) 0
  rw [hfun, hsum, matchingPrefixLen_eq_zip]
  simp

/-- C9: the session-history append keeps at most 15 summaries, puts the new
summary first, and on a full history of 15 drops exactly the oldest
(last) entry. -/
theorem c9_history_cap {α : Type} (summary : α) (sessions : List α) :
    (appendToHistory summary sessions).length ≤ 15 ∧
    (appendToHistory summary sessions).head? = some summary ∧
    (sessions.length = 15 →
      appendToHistory summary sessions = summary :: sessions.dropLast ∧
      (appendToHistory summary sessions).length = 15) := by
  refine ⟨?_, ?_, fun h15 => ⟨?_, ?_⟩⟩
  · rw [appendToHistory, List.length_take]
    omega
  · rw [appendToHistory, List.take_succ_cons]
    rfl
  · rw [appendToHistory, List.take_succ_cons, List.dropLast_eq_take, h15]
  · rw [appendToHistory, List.length_take]
    simp [h15]

/-- C9 witness: appending to a full 15-entry history keeps 15 entries and
drops the oldest. -/
theorem c9_history_cap_witness :
    appendToHistory 99 [0, 1, 2, 3, 4, 5, 6, 7, 8, 9, 10, 11, 12, 13, 14] =
      99 :: [0, 1, 2, 3, 4, 5, 6, 7, 8, 9, 10, 11, 12, 13, 14].dropLast ∧
    (appendToHistory 99 [0, 1, 2, 3, 4, 5, 6, 7, 8, 9, 10, 11, 12, 13, 14]).length = 15 :=
  (c9_history_cap 99 [0, 1, 2, 3, 4, 5, 6, 7, 8, 9, 10, 11, 12, 13, 14]).2.2 (by decide)

/-- Advancing never changes the assigned WPM. -/
theorem advanceBot_wpm (textLen dt r : ℚ) (b : BotRacer) :
    (advanceBot textLen dt r b).wpm = b.wpm := by
  rw [advanceBot]
  by_cases h : b.progress ≥ textLen <;> simp [h]

/-- One advance step never decreases progress (non-negative wpm, delta time
and random sample). -/
theorem advanceBot_mono (textLen dt r : ℚ) (b : BotRacer)
    (hw : 0 ≤ b.wpm) (hdt : 0 ≤ dt) (hr : 0 ≤ r) :
    b.progress ≤ (advanceBot textLen dt r b).progress := by
  rw [advanceBot]
  by_cases h : b.progress ≥ textLen
  · simp [h]
  · push_neg at h
    simp only [if_neg (not_le.mpr h)]
    have hinc : 0 ≤ b.wpm * 5 / 60 * dt * ((85:ℚ)/100 + r * (3/10)) := by positivity
    exact le_min h.le (by linarith)

/-- One advance step keeps progress at or below the passage length. -/
theorem advanceBot_le (textLen dt r : ℚ) (b : BotRacer)
    (hp : b.progress ≤ textLen) :
    (advanceBot textLen dt r b).progress ≤ textLen := by
  rw [advanceBot]
  by_cases h : b.progress ≥ textLen
  · simpa [h] using hp
  · simp [h, min_le_left]

/-- C4: over any sequence of advance ticks with non-negative measured delta
times (and non-negative random samples), a bot with non-negative assigned
WPM starting at or below the passage length has non-decreasing progress
across successive ticks, and its progress never exceeds the passage length
at any tick. -/
theorem c4_bot_progress_monotone (textLen : ℚ) (b : BotRacer)
    (ticks : List (ℚ × ℚ)) (hw : 0 ≤ b.wpm) (hp : b.progress ≤ textLen)
    (ht : ∀ t ∈ ticks, 0 ≤ t.1 ∧ 0 ≤ t.2) :
    List.Chain' (fun x y => x.progress ≤ y.progress) (botTrajectory textLen b ticks) ∧
    ∀ x ∈ botTrajectory textLen b ticks, x.progress ≤ textLen := by
  induction ticks generalizing b with
  | nil =>
    constructor
    · simp [botTrajectory]
    · intro x hx
      rw [botTrajectory, List.scanl_nil, List.mem_singleton] at hx
      rw [hx]
      exact hp
  | cons t ts ih =>
    have htt := ht t (List.mem_cons_self t ts)
    have hts : ∀ u ∈ ts, 0 ≤ u.1 ∧ 0 ≤ u.2 := fun u hu => ht u (List.mem_cons_of_mem t hu)
    have hw' : 0 ≤ (advanceBot textLen t.1 t.2 b).wpm := by
      rw [advanceBot_wpm]
      exact hw
    have hp' : (advanceBot textLen t.1 t.2 b).progress ≤ textLen :=
      advanceBot_le textLen t.1 t.2 b hp
    obtain ⟨ihc, ihm⟩ := ih (advanceBot textLen t.1 t.2 b) hw' hp' hts
    rw [botTrajectory, List.scanl_cons, List.singleton_append]
    constructor
    · rw [List.chain'_cons']
      refine ⟨fun y hy => ?_, ihc⟩
      have hhead : (botTrajectory textLen (advanceBot textLen t.1 t.2 b) ts).head? =
          some (advanceBot textLen t.1 t.2 b) := by
        rw [botTrajectory]
        cases ts <;> simp [List.scanl]
      rw [botTrajectory] at hhead
      rw [hhead, Option.mem_def, Option.some_inj] at hy
      rw [← hy]
      exact advanceBot_mono textLen t.1 t.2 b hw htt.1 htt.2
    · intro x hx
      rcases List.mem_cons.mp hx with h | h
      · rw [h]
        exact hp
      · exact ihm x h

/-- C4 witness: a 60 WPM bot at progress 0 on a 10-character passage over
one 1-second tick with random sample 0. -/
theorem c4_bot_progress_monotone_witness :
    List.Chain' (fun x y => x.progress ≤ y.progress)
      (botTrajectory 10 ⟨60, 0⟩ [(1, 0)]) ∧
    ∀ x ∈ botTrajectory 10 ⟨60, 0⟩ [(1, 0)], x.progress ≤ 10 :=
  c4_bot_progress_monotone 10 ⟨60, 0⟩ [(1, 0)] (by norm_num) (by norm_num)
    (by intro t htm; rw [List.mem_singleton] at htm; rw [htm]; norm_num)

/-- C5: when the newly typed input extends the buffer by one non-separator
character, strict mode rejects a character that differs from the target
word's character at that position (the whole evaluator state, in particular
the buffer, the word index and the word-result list, is unchanged), while a
matching character, or strict mode off, updates the buffer to the new
value. -/
theorem c5_strict_mode_reject (strict : Bool) (words : List (List Char))
    (s : EvalState) (c : Char) (target : List Char)
    (hc : c ≠ ' ' ∧ c ≠ '\t')
    (ht : words[s.currentWordIndex]? = some target) :
    (strict = true → target[s.currentTypedWord.length]? ≠ some c →
      onType strict words s (s.currentTypedWord ++ [c]) = s) ∧
    (strict = true → target[s.currentTypedWord.length]? = some c →
      onType strict words s (s.currentTypedWord ++ [c]) =
        { s with currentTypedWord := s.currentTypedWord ++ [c] }) ∧
    (strict = false →
      onType strict words s (s.currentTypedWord ++ [c]) =
        { s with currentTypedWord := s.currentTypedWord ++ [c] }) := by
  have hlast : (s.currentTypedWord ++ [c]).getLast? = some c := by
    simp
  have hsep : endsWithSep (s.currentTypedWord ++ [c]) = false := by
    rw [endsWithSep, hlast]
    simp [hc.1, hc.2]
  have hlen : (s.currentTypedWord ++ [c]).length = s.currentTypedWord.length + 1 := by
    simp
  have hpos : 0 < (s.currentTypedWord ++ [c]).length := by
    simp
  have hdrop : (s.currentTypedWord ++ [c]).dropLast = s.currentTypedWord := by
    simp
  refine ⟨fun hstrict hmis => ?_, fun hstrict hmatch => ?_, fun hstrict => ?_⟩
  · rw [onType, hsep, if_neg (by simp), hstrict, if_pos rfl, if_pos hpos]
    rw [ht]
    simp only [Option.getD_some, hlen, Nat.add_sub_cancel, hlast]
    rw [if_pos (by simpa using (Ne.symm hmis)), hdrop]
  · rw [onType, hsep, if_neg (by simp), hstrict, if_pos rfl, if_pos hpos]
    rw [ht]
    simp only [Option.getD_some, hlen, Nat.add_sub_cancel, hlast]
    rw [if_neg (by simp [hmatch])]
  · rw [onType, hsep, if_neg (by simp), hstrict]
    simp

/-- C5 witness: strict mode on, target word "cat", buffer "c", typing an
extra character: the mismatching character x is rejected leaving the state
untouched, while the matching character a is accepted into the buffer. -/
theorem c5_strict_mode_reject_witness :
    onType true [['c', 'a', 't']] ⟨0, ['c'], []⟩ (['c'] ++ ['x']) = ⟨0, ['c'], []⟩ ∧
    onType true [['c', 'a', 't']] ⟨0, ['c'], []⟩ (['c'] ++ ['a']) =
      ⟨0, ['c'] ++ ['a'], []⟩ :=
  ⟨(c5_strict_mode_reject true [['c', 'a', 't']] ⟨0, ['c'], []⟩ 'x' ['c', 'a', 't']
      (by decide) (by decide)).1 rfl (by decide),
   (c5_strict_mode_reject true [['c', 'a', 't']] ⟨0, ['c'], []⟩ 'a' ['c', 'a', 't']
      (by decide) (by decide)).2.1 rfl (by decide)⟩

/-- C1: the recorded placing is 1 when the human finishes first; otherwise
it is 1 plus the number of bots whose progress has reached the passage
length by the time the finish is detected.  In particular, when some bot
reaches full progress while the human is still short of the passage, the
finish is detected with `humanFinished = false` and the placing exceeds 1. -/
theorem c1_placing_rule (humanFinished : Bool) (textLen cc : ℕ)
    (bots : List BotRacer) :
    (humanFinished = true → recordPlacing humanFinished textLen bots = 1) ∧
    (humanFinished = false →
      recordPlacing humanFinished textLen bots =
        1 + (bots.filter (fun b => decide (b.progress ≥ (textLen : ℚ)))).length) ∧
    (cc < textLen → (∃ b ∈ bots, (textLen : ℚ) ≤ b.progress) →
      finishCheck cc textLen bots = some false ∧
      1 < recordPlacing false textLen bots) := by
  refine ⟨fun h => ?_, fun h => ?_, fun hcc ⟨w, hw, hwp⟩ => ⟨?_, ?_⟩⟩
  · rw [recordPlacing, h]
    simp
  · rw [recordPlacing, h]
    simp
  · rw [finishCheck]
    have h1 : decide (cc ≥ textLen) = false := by
      simp [hcc, Nat.not_le.mpr hcc]
    have h2 : bots.any (fun b => decide (b.progress ≥ (textLen : ℚ))) = true := by
      rw [List.any_eq_true]
      exact ⟨w, hw, by simpa using hwp⟩
    simp only [h1, h2, Bool.false_or, if_pos]
  · rw [recordPlacing]
    have hmem : w ∈ bots.filter
        (fun b => decide (b.progress ≥ (textLen : ℚ)) && !false) := by
      rw [List.mem_filter]
      exact ⟨hw, by simpa using hwp⟩
    have := List.length_pos.mpr (List.ne_nil_of_mem hmem)
    omega

/-- C1 witness: one bot at full progress on a 1-character passage while the
human has 0 correct characters: the finish records `humanFinished = false`
and the placing is greater than 1. -/
theorem c1_placing_rule_witness :
    finishCheck 0 1 [⟨50, 1⟩] = some false ∧ 1 < recordPlacing false 1 [⟨50, 1⟩] :=
  (c1_placing_rule false 1 0 [⟨50, 1⟩]).2.2 (by norm_num)
    ⟨⟨50, 1⟩, by simp, by norm_num⟩

/-- Length of words joined by single spaces: total word length plus one
separator between each adjacent pair. -/
theorem length_intercalate_space :
    ∀ ws : List (List Char), ws ≠ [] →
      (List.intercalate [' '] ws).length = (ws.map List.length).sum + ws.length - 1 := by
  intro ws
  induction ws with
  | nil => intro h; exact absurd rfl h
  | cons w t ih =>
    intro _
    cases t with
    | nil => simp [List.intercalate]
    | cons v t' =>
      have hrec := ih (by simp)
      have hstep : List.intercalate [' '] (w :: v :: t') =
          w ++ [' '] ++ List.intercalate [' '] (v :: t') := by
        simp [List.intercalate, List.intersperse]
      rw [hstep, List.length_append, List.length_append]
      have hsep : ([' '] : List Char).length = 1 := rfl
      rw [hsep]
      simp only [List.map_cons, List.sum_cons, List.length_cons] at hrec ⊢
      omega

/-- C10: with every word but the last committed correct and the final word
fully present in the buffer (no separator typed), the correct-character
count already equals the length of the space-joined passage, so the
finish-detection effect fires with `humanFinished = true` while the
word-result list has one entry fewer than the passage has words: the final
WordResult is never emitted. -/
theorem c10_final_word_not_emitted (ws : List (List Char)) (bots : List BotRacer)
    (hne : ws ≠ []) (s : EvalState)
    (hs : s = { currentWordIndex := ws.length - 1,
                currentTypedWord := ws.getLast hne,
                wordResults := ws.dropLast.map (fun w => ⟨w, w, true⟩) }) :
    correctChars ws s = (List.intercalate [' '] ws).length ∧
    finishCheck (correctChars ws s) (List.intercalate [' '] ws).length bots = some true ∧
    s.wordResults.length + 1 = ws.length := by
  have hlen : 0 < ws.length := List.length_pos.mpr hne
  have hcc : correctChars ws s = (ws.map List.length).sum + ws.length - 1 := by
    rw [correctChars, hs]
    simp only
    have htarget : ws[ws.length - 1]? = some (ws.getLast hne) := by
      rw [(List.getLast?_eq_getElem? ws).symm, List.getLast?_eq_getLast_of_ne_nil hne]
    rw [htarget]
    simp only [Option.getD_some, matchingPrefixLen_self]
    rw [completedCorrectChars]
    have hfilter : (ws.dropLast.map (fun w => (⟨w, w, true⟩ : WordResult))).filter
        (fun r => r.correct) = ws.dropLast.map (fun w => ⟨w, w, true⟩) := by
      rw [List.filter_eq_self]
      intro r hr
      rw [List.mem_map] at hr
      obtain ⟨w, _, hw⟩ := hr
      rw [← hw]
    rw [hfilter]
    have hfun : (fun (total : ℕ) (r : WordResult) => total + r.word.length + 1) =
        fun (total : ℕ) (r : WordResult) => total + (r.word.length + 1) := by
      funext a r
      omega
    rw [hfun, foldl_add_eq_sum]
    have hsum : ((ws.dropLast.map (fun w => (⟨w, w, true⟩ : WordResult))).map
        (fun r => r.word.length + 1)).sum =
        (ws.dropLast.map (fun w => w.length + 1)).sum := by
      rw [List.map_map]
      rfl
    rw [hsum]
    have hsplit := List.dropLast_append_getLast hne
    have h1 : (ws.map List.length).sum =
        (ws.dropLast.map List.length).sum + (ws.getLast hne).length := by
      conv_lhs => rw [← hsplit]
      simp
    have h2 : ws.length = ws.dropLast.length + 1 := by
      conv_lhs => rw [← hsplit]
      simp
    have h3 : (ws.dropLast.map (fun w => w.length + 1)).sum =
        (ws.dropLast.map List.length).sum + ws.dropLast.length := by
      induction ws.dropLast with
      | nil => simp
      | cons a t iht => simp [iht]; omega
    omega
  refine ⟨?_, ?_, ?_⟩
  · rw [hcc, length_intercalate_space ws hne]
  · rw [finishCheck]
    have : decide (correctChars ws s ≥ (List.intercalate [' '] ws).length) = true := by
      rw [hcc, length_intercalate_space ws hne]
      simp
    rw [this]
    rfl
  · rw [hs]
    simp only [List.length_map, List.length_dropLast]
    omega

/-- C10 witness: the one-word passage "hi" with the full word in the buffer:
the correct-character count reaches the passage length, the finish fires
with the human done, and no WordResult was emitted. -/
theorem c10_final_word_not_emitted_witness :
    correctChars [['h', 'i']] ⟨0, ['h', 'i'], []⟩ =
      (List.intercalate [' '] [['h', 'i']]).length ∧
    finishCheck (correctChars [['h', 'i']] ⟨0, ['h', 'i'], []⟩)
      (List.intercalate [' '] [['h', 'i']]).length [] = some true ∧
    (⟨0, ['h', 'i'], []⟩ : EvalState).wordResults.length + 1 = [['h', 'i']].length :=
  c10_final_word_not_emitted [['h', 'i']] [] (by decide) ⟨0, ['h', 'i'], []⟩ rfl

-- === Normalizer lemmas ====================================================

/-- Every character that the whitespace collapse emits is either the plain
space or a non-whitespace character of its input. -/
theorem mem_collapseWS (b : Bool) (s : List Char) (c : Char)
    (h : c ∈ collapseWS b s) : c = ' ' ∨ (c ∈ s ∧ isJsSpace c = false) := by
  induction s generalizing b with
  | nil => simp [collapseWS] at h
  | cons a rest ih =>
    rw [collapseWS] at h
    by_cases ha : isJsSpace a
    · rw [if_pos ha] at h
      cases b with
      | true =>
        rcases ih true h with h1 | h2
        · exact Or.inl h1
        · exact Or.inr ⟨List.mem_cons_of_mem a h2.1, h2.2⟩
      | false =>
        rcases List.mem_cons.mp h with h1 | h1
        · exact Or.inl h1
        · rcases ih true h1 with h2 | h2
          · exact Or.inl h2
          · exact Or.inr ⟨List.mem_cons_of_mem a h2.1, h2.2⟩
    · rw [if_neg ha] at h
      rcases List.mem_cons.mp h with h1 | h1
      · subst h1
        exact Or.inr ⟨List.mem_cons_self c rest, by simpa using ha⟩
      · rcases ih false h1 with h2 | h2
        · exact Or.inl h2
        · exact Or.inr ⟨List.mem_cons_of_mem a h2.1, h2.2⟩

/-- The whitespace collapse never starts its output with a space while it
is inside a run. -/
theorem head_collapseWS_true (s : List Char) (c : Char)
    (h : (collapseWS true s).head? = some c) : isJsSpace c = false := by
  induction s with
  | nil => simp [collapseWS] at h
  | cons a rest ih =>
    rw [collapseWS] at h
    by_cases ha : isJsSpace a
    · rw [if_pos ha] at h
      exact ih h
    · rw [if_neg ha] at h
      rw [List.head?_cons, Option.some_inj] at h
      subst h
      simpa using ha

/-- The output of the whitespace collapse never has two adjacent spaces. -/
theorem chain'_collapseWS (b : Bool) (s : List Char) :
    List.Chain' (fun x y => ¬(x = ' ' ∧ y = ' ')) (collapseWS b s) := by
  induction s generalizing b with
  | nil => simp [collapseWS]
  | cons a rest ih =>
    rw [collapseWS]
    by_cases ha : isJsSpace a
    · rw [if_pos ha]
      cases b with
      | true => exact ih true
      | false =>
        have hred : (if false = true then collapseWS true rest
            else ' ' :: collapseWS true rest) = ' ' :: collapseWS true rest := rfl
        rw [hred, List.chain'_cons']
        refine ⟨fun y hy => ?_, ih true⟩
        have := head_collapseWS_true rest y hy
        intro hcon
        rw [hcon.2] at this
        simp [isJsSpace] at this
    · rw [if_neg ha]
      rw [List.chain'_cons']
      refine ⟨fun y hy => ?_, ih false⟩
      intro hcon
      rw [hcon.1] at ha
      simp [isJsSpace] at ha

/-- When the input ends with a non-whitespace character, the whitespace
collapse keeps exactly that last character. -/
theorem getLast_collapseWS (s : List Char) (z : Char) (hz : s.getLast? = some z)
    (hnws : isJsSpace z = false) :
    ∀ b, collapseWS b s ≠ [] ∧ (collapseWS b s).getLast? = some z := by
  induction s with
  | nil => simp at hz
  | cons a rest ih =>
    intro b
    cases rest with
    | nil =>
      rw [List.getLast?_singleton, Option.some_inj] at hz
      subst hz
      have hred : collapseWS b [a] = [a] := by
        rw [collapseWS, if_neg]
        · rw [collapseWS]
        · rw [hnws]
          simp
      rw [hred]
      exact ⟨by simp, by simp⟩
    | cons r rs =>
      rw [List.getLast?_cons_cons] at hz
      have ihr := ih hz
      rw [collapseWS]
      by_cases ha : isJsSpace a
      · rw [if_pos ha]
        cases b with
        | true => exact ihr true
        | false =>
          have hred : (if false = true then collapseWS true (r :: rs)
              else ' ' :: collapseWS true (r :: rs)) = ' ' :: collapseWS true (r :: rs) := rfl
          rw [hred]
          obtain ⟨hne, hl⟩ := ihr true
          refine ⟨by simp, ?_⟩
          cases hcw : collapseWS true (r :: rs) with
          | nil => exact absurd hcw hne
          | cons w ws =>
            rw [hcw] at hl
            rw [List.getLast?_cons_cons, hl]
      · rw [if_neg ha]
        obtain ⟨hne, hl⟩ := ihr false
        refine ⟨by simp, ?_⟩
        cases hcw : collapseWS false (r :: rs) with
        | nil => exact absurd hcw hne
        | cons w ws =>
          rw [hcw] at hl
          rw [List.getLast?_cons_cons, hl]

/-- The first character surviving a dropWhile fails the predicate. -/
theorem head_dropWhile_not (p : Char → Bool) (l : List Char) (c : Char)
    (h : (l.dropWhile p).head? = some c) : p c = false := by
  induction l with
  | nil => simp at h
  | cons a rest ih =>
    rw [List.dropWhile] at h
    by_cases ha : p a
    · rw [ha] at h
      exact ih (by simpa using h)
    · have ha' : p a = false := by simpa using ha
      rw [ha'] at h
      simp only [List.head?_cons, Option.some_inj] at h
      rw [← h]
      exact ha'

/-- A nonempty dropWhile keeps the last element. -/
theorem getLast_dropWhile (p : Char → Bool) (l : List Char)
    (h : l.dropWhile p ≠ []) : (l.dropWhile p).getLast? = l.getLast? := by
  induction l with
  | nil => simp at h
  | cons a rest ih =>
    rw [List.dropWhile] at h ⊢
    by_cases ha : p a
    · rw [ha] at h ⊢
      have hrest : rest ≠ [] := by
        intro hr
        rw [hr] at h
        simp at h
      rw [ih h]
      cases rest with
      | nil => exact absurd rfl hrest
      | cons r rs => rw [List.getLast?_cons_cons]
    · have ha' : p a = false := by simpa using ha
      rw [ha'] at h ⊢

/-- Characters of the trimmed string come from the original string. -/
theorem mem_trimJs (s : List Char) (c : Char) (h : c ∈ trimJs s) : c ∈ s := by
  rw [trimJs, List.mem_reverse] at h
  have h1 := (List.dropWhile_sublist _).subset h
  rw [List.mem_reverse] at h1
  exact (List.dropWhile_sublist _).subset h1

/-- The trimmed string never starts with whitespace. -/
theorem head_trimJs (s : List Char) (c : Char) (h : (trimJs s).head? = some c) :
    isJsSpace c = false := by
  rw [trimJs, List.head?_reverse] at h
  by_cases hx : ((s.dropWhile isJsSpace).reverse.dropWhile isJsSpace) = []
  · rw [hx] at h
    simp at h
  · rw [getLast_dropWhile isJsSpace _ hx, List.getLast?_reverse] at h
    exact head_dropWhile_not isJsSpace _ c h

/-- The trimmed string never ends with whitespace. -/
theorem getLast_trimJs (s : List Char) (c : Char)
    (h : (trimJs s).getLast? = some c) : isJsSpace c = false := by
  rw [trimJs, List.getLast?_reverse] at h
  exact head_dropWhile_not isJsSpace _ c h

/-- Characters of the ellipsis expansion: a period or a non-ellipsis input
character. -/
theorem mem_expandEllipsis (s : List Char) (c : Char) (h : c ∈ expandEllipsis s) :
    c = '.' ∨ (c ∈ s ∧ c ≠ '…') := by
  induction s with
  | nil => simp [expandEllipsis] at h
  | cons a rest ih =>
    rw [expandEllipsis] at h
    by_cases ha : a = '…'
    · rw [if_pos ha] at h
      rcases List.mem_cons.mp h with h1 | h1
      · exact Or.inl h1
      rcases List.mem_cons.mp h1 with h2 | h2
      · exact Or.inl h2
      rcases List.mem_cons.mp h2 with h3 | h3
      · exact Or.inl h3
      · rcases ih h3 with h4 | h4
        · exact Or.inl h4
        · exact Or.inr ⟨List.mem_cons_of_mem a h4.1, h4.2⟩
    · rw [if_neg ha] at h
      rcases List.mem_cons.mp h with h1 | h1
      · subst h1
        exact Or.inr ⟨List.mem_cons_self c rest, ha⟩
      · rcases ih h1 with h2 | h2
        · exact Or.inl h2
        · exact Or.inr ⟨List.mem_cons_of_mem a h2.1, h2.2⟩

/-- Characters of the em-dash expansion: a hyphen or a non-em-dash input
character. -/
theorem mem_expandEmDash (s : List Char) (c : Char) (h : c ∈ expandEmDash s) :
    c = '-' ∨ (c ∈ s ∧ c ≠ '—') := by
  induction s with
  | nil => simp [expandEmDash] at h
  | cons a rest ih =>
    rw [expandEmDash] at h
    by_cases ha : a = '—'
    · rw [if_pos ha] at h
      rcases List.mem_cons.mp h with h1 | h1
      · exact Or.inl h1
      rcases List.mem_cons.mp h1 with h2 | h2
      · exact Or.inl h2
      · rcases ih h2 with h3 | h3
        · exact Or.inl h3
        · exact Or.inr ⟨List.mem_cons_of_mem a h3.1, h3.2⟩
    · rw [if_neg ha] at h
      rcases List.mem_cons.mp h with h1 | h1
      · subst h1
        exact Or.inr ⟨List.mem_cons_self c rest, ha⟩
      · rcases ih h1 with h2 | h2
        · exact Or.inl h2
        · exact Or.inr ⟨List.mem_cons_of_mem a h2.1, h2.2⟩

/-- After steps 7 through 14 no eliminated character remains, whatever the
input was. -/
theorem noBad_after_steps (u : List Char) (c : Char)
    (h : c ∈ rmBOM (rmWordJoiner (mapNbsp (mapEnDash (expandEmDash
      (expandEllipsis (mapSingleQuotes (mapDoubleQuotes u)))))))) :
    badChar c = false := by
  rw [rmBOM, List.mem_filter] at h
  have h1 := h.1
  rw [rmWordJoiner, List.mem_filter] at h1
  have hwj : c ≠ '⁠' := by
    have := h1.2
    simpa using this
  have h2 := h1.1
  rw [mapNbsp, List.mem_map] at h2
  obtain ⟨d, hd, hdc⟩ := h2
  by_cases hdn : d = ' '
  · rw [hdn] at hdc
    rw [if_pos rfl] at hdc
    rw [← hdc]
    decide
  · rw [if_neg hdn] at hdc
    subst hdc
    rw [mapEnDash, List.mem_map] at hd
    obtain ⟨e, he, hed⟩ := hd
    by_cases hen : e = '–'
    · rw [if_pos hen] at hed
      rw [← hed]
      decide
    · rw [if_neg hen] at hed
      subst hed
      rcases mem_expandEmDash _ e he with hh | hh
      · rw [hh]
        decide
      · rcases mem_expandEllipsis _ e hh.1 with hg | hg
        · rw [hg]
          decide
        · rw [badChar]
          simp [hg.2, hh.2, hen, hwj]

/-- Collapsing whitespace after a trim yields a fully normalized string,
provided the eliminated characters are already gone. -/
theorem cleanStr_collapse_trim (X : List Char)
    (hX : ∀ c ∈ X, badChar c = false) :
    CleanStr (collapseWS false (trimJs X)) := by
  refine ⟨?_, chain'_collapseWS false (trimJs X), ?_, ?_⟩
  · intro c hc
    rcases mem_collapseWS false (trimJs X) c hc with h | h
    · subst h
      exact ⟨fun _ => rfl, by decide⟩
    · refine ⟨fun hws => absurd hws (by simp [h.2]), ?_⟩
      exact hX c (mem_trimJs X c h.1)
  · intro c hc
    cases htr : trimJs X with
    | nil =>
      rw [htr] at hc
      simp [collapseWS] at hc
    | cons a rest =>
      have hha : isJsSpace a = false := by
        refine head_trimJs X a ?_
        rw [htr, List.head?_cons]
      rw [htr, collapseWS, if_neg (by simp [hha]), List.head?_cons,
        Option.some_inj] at hc
      subst hc
      intro hsp
      rw [hsp] at hha
      simp [isJsSpace] at hha
  · intro c hc
    cases htr : trimJs X with
    | nil =>
      rw [htr] at hc
      simp [collapseWS] at hc
    | cons a rest =>
      have hne : (a :: rest) ≠ ([] : List Char) := by simp
      have hz := List.getLast?_eq_getLast_of_ne_nil hne
      have hzws : isJsSpace ((a :: rest).getLast hne) = false := by
        refine getLast_trimJs X _ ?_
        rw [htr, hz]
      obtain ⟨-, hl⟩ := getLast_collapseWS (a :: rest) ((a :: rest).getLast hne)
        hz hzws false
      rw [htr, hl, Option.some_inj] at hc
      subst hc
      intro hsp
      rw [hsp] at hzws
      simp [isJsSpace] at hzws

/-- The output of the normalization chain is always fully normalized. -/
theorem cleanStr_normalizeSteps (t : List Char) : CleanStr (normalizeSteps t) := by
  rw [normalizeSteps]
  exact cleanStr_collapse_trim _ (noBad_after_steps _)

-- === Fixed-point lemmas: each step is the identity on a clean string ======

/-- A map whose function fixes every list element is the identity. -/
theorem map_id_of_fixed {f : Char → Char} (s : List Char)
    (h : ∀ c ∈ s, f c = c) : s.map f = s := by
  induction s with
  | nil => rfl
  | cons a rest ih =>
    rw [List.map_cons, h a (List.mem_cons_self a rest),
      ih (fun c hc => h c (List.mem_cons_of_mem a hc))]

/-- Step 1 is the identity when no carriage return is present. -/
theorem replCRLF_id (s : List Char) (h : '\r' ∉ s) : replCRLF s = s := by
  induction s using replCRLF.induct with
  | case1 => rfl
  | case2 c => rfl
  | case3 c1 c2 rest hif ih =>
    exact absurd (by rw [hif.1]; exact List.mem_cons_self _ _) h
  | case4 c1 c2 rest hif ih =>
    rw [replCRLF, if_neg hif, ih]
    intro hm
    exact h (List.mem_cons_of_mem c1 hm)

/-- Step 2 is the identity when no carriage return is present. -/
theorem mapCRtoNL_id (s : List Char) (h : '\r' ∉ s) : mapCRtoNL s = s := by
  rw [mapCRtoNL]
  refine map_id_of_fixed s fun c hc => if_neg fun hcr => ?_
  rw [hcr] at hc
  exact h hc

/-- Step 3 is the identity when no newline is present. -/
theorem capNewlineRuns_id (s : List Char) (h : '\n' ∉ s) :
    ∀ k, capNewlineRuns k s = s := by
  induction s with
  | nil => intro k; rfl
  | cons a rest ih =>
    intro k
    have ha : a ≠ '\n' := by
      intro hn
      rw [hn] at h
      exact h (List.mem_cons_self _ _)
    rw [capNewlineRuns, if_neg (by simpa using ha),
      ih (fun hm => h (List.mem_cons_of_mem a hm)) 0]

/-- Step 4 is the identity when there is no tab and no doubled space. -/
theorem collapseSpaceTab_id (s : List Char) (ht : '\t' ∉ s)
    (hchain : List.Chain' (fun a b => ¬(a = ' ' ∧ b = ' ')) s) :
    collapseSpaceTab false s = s ∧
      (s.head? ≠ some ' ' → collapseSpaceTab true s = s) := by
  induction s with
  | nil => exact ⟨rfl, fun _ => rfl⟩
  | cons a rest ih =>
    have ht' : '\t' ∉ rest := fun hm => ht (List.mem_cons_of_mem a hm)
    have hch' : List.Chain' (fun a b => ¬(a = ' ' ∧ b = ' ')) rest :=
      (List.chain'_cons'.mp hchain).2
    have hhd := (List.chain'_cons'.mp hchain).1
    obtain ⟨ih0, ih1⟩ := ih ht' hch'
    by_cases ha : a = ' ' ∨ a = '\t'
    · have ha' : a = ' ' := by
        rcases ha with h1 | h1
        · exact h1
        · exact absurd (by rw [h1]; exact List.mem_cons_self _ _) ht
      have hresthd : rest.head? ≠ some ' ' := by
        intro hr
        exact hhd ' ' hr ⟨ha', rfl⟩
      constructor
      · rw [collapseSpaceTab, if_pos ha]
        have hred : (if false = true then collapseSpaceTab true rest
            else ' ' :: collapseSpaceTab true rest) = ' ' :: collapseSpaceTab true rest := rfl
        rw [hred, ih1 hresthd, ha']
      · intro hh
        rw [List.head?_cons, ha'] at hh
        exact absurd rfl hh
    · constructor
      · rw [collapseSpaceTab, if_neg ha, ih0]
      · intro _
        rw [collapseSpaceTab, if_neg ha, ih0]

/-- Step 5 is the identity when no newline is present. -/
theorem rmSpacesBeforeNL_id (s : List Char) (h : '\n' ∉ s) :
    rmSpacesBeforeNL s = s := by
  induction s with
  | nil => rfl
  | cons a rest ih =>
    have hr : '\n' ∉ rest := fun hm => h (List.mem_cons_of_mem a hm)
    by_cases ha : a = ' '
    · rw [rmSpacesBeforeNL, if_pos ha, ih hr]
      split
      · exfalso
        exact hr (List.mem_cons_self _ _)
      · rw [ha]
    · rw [rmSpacesBeforeNL, if_neg ha, ih hr]

/-- Step 6 is the identity when no newline is present. -/
theorem rmSpacesAfterNL_id (s : List Char) (h : '\n' ∉ s) :
    rmSpacesAfterNL false s = s := by
  induction s with
  | nil => rfl
  | cons a rest ih =>
    have hr : '\n' ∉ rest := fun hm => h (List.mem_cons_of_mem a hm)
    have ha : a ≠ '\n' := by
      intro hn
      rw [hn] at h
      exact h (List.mem_cons_self _ _)
    rw [rmSpacesAfterNL, if_neg (by simpa using ha)]
    by_cases ha2 : a = ' '
    · rw [if_pos ha2]
      have hred : (if false = true then rmSpacesAfterNL true rest
          else ' ' :: rmSpacesAfterNL false rest) = ' ' :: rmSpacesAfterNL false rest := rfl
      rw [hred, ih hr, ha2]
    · rw [if_neg ha2, ih hr]

/-- Step 7 is the identity outright (its map fixes every character). -/
theorem mapDoubleQuotes_id (s : List Char) : mapDoubleQuotes s = s := by
  rw [mapDoubleQuotes]
  refine map_id_of_fixed s fun c _ => ?_
  by_cases hc : c = '"' ∨ c = '"'
  · rcases hc with h | h <;> rw [if_pos (Or.inl h), h]
  · rw [if_neg hc]

/-- Step 8 is the identity outright (its map fixes every character). -/
theorem mapSingleQuotes_id (s : List Char) : mapSingleQuotes s = s := by
  rw [mapSingleQuotes]
  refine map_id_of_fixed s fun c _ => ?_
  by_cases hc : c = '\'' ∨ c = '\''
  · rcases hc with h | h <;> rw [if_pos (Or.inl h), h]
  · rw [if_neg hc]

/-- Step 9 is the identity when no ellipsis character is present. -/
theorem expandEllipsis_id (s : List Char) (h : '…' ∉ s) : expandEllipsis s = s := by
  induction s with
  | nil => rfl
  | cons a rest ih =>
    have ha : a ≠ '…' := by
      intro he
      rw [he] at h
      exact h (List.mem_cons_self _ _)
    rw [expandEllipsis, if_neg ha, ih (fun hm => h (List.mem_cons_of_mem a hm))]

/-- Step 10 is the identity when no em dash is present. -/
theorem expandEmDash_id (s : List Char) (h : '—' ∉ s) : expandEmDash s = s := by
  induction s with
  | nil => rfl
  | cons a rest ih =>
    have ha : a ≠ '—' := by
      intro he
      rw [he] at h
      exact h (List.mem_cons_self _ _)
    rw [expandEmDash, if_neg ha, ih (fun hm => h (List.mem_cons_of_mem a hm))]

/-- Step 11 is the identity when no en dash is present. -/
theorem mapEnDash_id (s : List Char) (h : '–' ∉ s) : mapEnDash s = s := by
  rw [mapEnDash]
  refine map_id_of_fixed s fun c hc => if_neg fun he => ?_
  rw [he] at hc
  exact h hc

/-- Step 12 is the identity when no non-breaking space is present. -/
theorem mapNbsp_id (s : List Char) (h : ' ' ∉ s) : mapNbsp s = s := by
  rw [mapNbsp]
  refine map_id_of_fixed s fun c hc => if_neg fun he => ?_
  rw [he] at hc
  exact h hc

/-- Step 13 is the identity when no word joiner is present. -/
theorem rmWordJoiner_id (s : List Char) (h : '⁠' ∉ s) : rmWordJoiner s = s := by
  rw [rmWordJoiner, List.filter_eq_self]
  intro c hc
  simp only [decide_eq_true_eq]
  intro he
  rw [he] at hc
  exact h hc

/-- Step 14 is the identity when no byte-order mark is present. -/
theorem rmBOM_id (s : List Char) (h : '﻿' ∉ s) : rmBOM s = s := by
  rw [rmBOM, List.filter_eq_self]
  intro c hc
  simp only [decide_eq_true_eq]
  intro he
  rw [he] at hc
  exact h hc

/-- A dropWhile whose predicate fails on the head is the identity. -/
theorem dropWhile_eq_self_of_head (p : Char → Bool) (l : List Char)
    (h : ∀ c, l.head? = some c → p c = false) : l.dropWhile p = l := by
  cases l with
  | nil => rfl
  | cons a rest =>
    rw [List.dropWhile, h a (by rw [List.head?_cons])]

/-- Step 15 is the identity when the string neither starts nor ends with
whitespace. -/
theorem trimJs_id (s : List Char)
    (hh : ∀ c, s.head? = some c → isJsSpace c = false)
    (hl : ∀ c, s.getLast? = some c → isJsSpace c = false) : trimJs s = s := by
  rw [trimJs, dropWhile_eq_self_of_head isJsSpace s hh]
  rw [dropWhile_eq_self_of_head isJsSpace s.reverse
    (fun c hc => hl c (by rwa [List.head?_reverse] at hc))]
  exact List.reverse_reverse s

/-- Step 16 is the identity on a string whose whitespace is exactly single
plain spaces. -/
theorem collapseWS_id (s : List Char)
    (hws : ∀ c ∈ s, isJsSpace c = true → c = ' ')
    (hchain : List.Chain' (fun a b => ¬(a = ' ' ∧ b = ' ')) s) :
    collapseWS false s = s ∧ (s.head? ≠ some ' ' → collapseWS true s = s) := by
  induction s with
  | nil => exact ⟨rfl, fun _ => rfl⟩
  | cons a rest ih =>
    have hws' : ∀ c ∈ rest, isJsSpace c = true → c = ' ' :=
      fun c hc => hws c (List.mem_cons_of_mem a hc)
    have hch' : List.Chain' (fun a b => ¬(a = ' ' ∧ b = ' ')) rest :=
      (List.chain'_cons'.mp hchain).2
    have hhd := (List.chain'_cons'.mp hchain).1
    obtain ⟨ih0, ih1⟩ := ih hws' hch'
    by_cases ha : isJsSpace a = true
    · have ha' : a = ' ' := hws a (List.mem_cons_self a rest) ha
      have hresthd : rest.head? ≠ some ' ' := by
        intro hr
        exact hhd ' ' hr ⟨ha', rfl⟩
      constructor
      · rw [collapseWS, if_pos ha]
        have hred : (if false = true then collapseWS true rest
            else ' ' :: collapseWS true rest) = ' ' :: collapseWS true rest := rfl
        rw [hred, ih1 hresthd, ha']
      · intro hh
        rw [List.head?_cons, ha'] at hh
        exact absurd rfl hh
    · constructor
      · rw [collapseWS, if_neg ha, ih0]
      · intro _
        rw [collapseWS, if_neg ha, ih0]

/-- The whole normalization chain is the identity on a fully normalized
string: every step fixes it. -/
theorem normalizeSteps_id (s : List Char) (h : CleanStr s) : normalizeSteps s = s := by
  obtain ⟨hmem, hchain, hhead, hlast⟩ := h
  have hnomem : ∀ c : Char, isJsSpace c = true → c ≠ ' ' → c ∉ s :=
    fun c hws hne hm => hne ((hmem c hm).1 hws)
  have hcr : '\r' ∉ s := hnomem '\r' (by decide) (by decide)
  have hnl : '\n' ∉ s := hnomem '\n' (by decide) (by decide)
  have htab : '\t' ∉ s := hnomem '\t' (by decide) (by decide)
  have hnb : ' ' ∉ s := hnomem ' ' (by decide) (by decide)
  have hbom : '﻿' ∉ s := hnomem '﻿' (by decide) (by decide)
  have hbad : ∀ c ∈ s, badChar c = false := fun c hc => (hmem c hc).2
  have hell : '…' ∉ s := fun hm => absurd (hbad _ hm) (by decide)
  have hem : '—' ∉ s := fun hm => absurd (hbad _ hm) (by decide)
  have hen : '–' ∉ s := fun hm => absurd (hbad _ hm) (by decide)
  have hwj : '⁠' ∉ s := fun hm => absurd (hbad _ hm) (by decide)
  have hheadws : ∀ c, s.head? = some c → isJsSpace c = false := by
    intro c hc
    have hcm : c ∈ s := List.mem_of_mem_head? (by rw [hc]; rfl)
    by_contra hws
    rw [Bool.not_eq_false] at hws
    exact hhead c hc ((hmem c hcm).1 hws)
  have hlastws : ∀ c, s.getLast? = some c → isJsSpace c = false := by
    intro c hc
    have hcm : c ∈ s := List.mem_of_mem_getLast? (by rw [hc]; rfl)
    by_contra hws
    rw [Bool.not_eq_false] at hws
    exact hlast c hc ((hmem c hcm).1 hws)
  rw [normalizeSteps, replCRLF_id s hcr, mapCRtoNL_id s hcr,
    capNewlineRuns_id s hnl 0, (collapseSpaceTab_id s htab hchain).1,
    rmSpacesBeforeNL_id s hnl, rmSpacesAfterNL_id s hnl, mapDoubleQuotes_id s,
    mapSingleQuotes_id s, expandEllipsis_id s hell, expandEmDash_id s hem,
    mapEnDash_id s hen, mapNbsp_id s hnb, rmWordJoiner_id s hwj, rmBOM_id s hbom,
    trimJs_id s hheadws hlastws,
    (collapseWS_id s (fun c hc => (hmem c hc).1) hchain).1]

/-- C3: the text normalizer with no options is idempotent: normalizing an
already normalized string changes nothing. -/
theorem c3_cleanText_idempotent (x : List Char) :
    cleanText (cleanText x) = cleanText x := by
  by_cases hx : x = []
  · rw [hx]
    rfl
  · have h1 : cleanText x = normalizeSteps x := by rw [cleanText, if_neg hx]
    rw [h1]
    by_cases hy : normalizeSteps x = []
    · rw [hy]
      rfl
    · rw [cleanText, if_neg hy]
      exact normalizeSteps_id _ (cleanStr_normalizeSteps x)

-- === Truncation lemmas =====================================================

/-- A found last index is a valid index carrying the sought character. -/
theorem lastIndexOfAux_some (c : Char) (s : List Char) :
    ∀ i, lastIndexOfAux c s = some i → i < s.length ∧ s[i]? = some c := by
  induction s with
  | nil => intro i h; simp [lastIndexOfAux] at h
  | cons a rest ih =>
    intro i h
    rw [lastIndexOfAux] at h
    cases haux : lastIndexOfAux c rest with
    | some j =>
      rw [haux] at h
      simp only [Option.some_inj] at h
      obtain ⟨hj, hjc⟩ := ih j haux
      subst h
      refine ⟨by simpa using hj, ?_⟩
      rw [List.getElem?_cons_succ]
      exact hjc
    | none =>
      rw [haux] at h
      by_cases hac : a = c
      · rw [if_pos hac] at h
        simp only [Option.some_inj] at h
        subst h
        exact ⟨by simp, by rw [List.getElem?_cons_zero, hac]⟩
      · rw [if_neg hac] at h
        exact absurd h (by simp)

/-- When no last index is found the character is absent. -/
theorem lastIndexOfAux_none (c : Char) (s : List Char)
    (h : lastIndexOfAux c s = none) : c ∉ s := by
  induction s with
  | nil => simp
  | cons a rest ih =>
    rw [lastIndexOfAux] at h
    cases haux : lastIndexOfAux c rest with
    | some j => rw [haux] at h; exact absurd h (by simp)
    | none =>
      rw [haux] at h
      by_cases hac : a = c
      · rw [if_pos hac] at h
        exact absurd h (by simp)
      · rw [if_neg hac] at h
        intro hm
        rcases List.mem_cons.mp hm with h1 | h1
        · exact hac h1.symm
        · exact ih haux h1

/-- Taking a positive prefix keeps the head. -/
theorem head?_take (l : List Char) (n : ℕ) (hn : 0 < n) :
    (l.take n).head? = l.head? := by
  cases l with
  | nil => simp
  | cons a rest =>
    cases n with
    | zero => omega
    | succ k => rw [List.take_succ_cons, List.head?_cons, List.head?_cons]

/-- Taking one past a valid index ends exactly at that element. -/
theorem getLast?_take_succ (l : List Char) (i : ℕ) (a : Char)
    (h : l[i]? = some a) : (l.take (i + 1)).getLast? = some a := by
  rw [List.take_succ, h]
  exact List.getLast?_concat _

/-- Two adjacent spaces contradict the no-double-space chain. -/
theorem chain'_no_double_space (text : List Char)
    (hchain : List.Chain' (fun a b => ¬(a = ' ' ∧ b = ' ')) text)
    (j : ℕ) (hj : 0 < j) (h1 : text[j - 1]? = some ' ')
    (h2 : text[j]? = some ' ') : False := by
  have hlen : j < text.length := by
    by_contra hc
    rw [List.getElem?_eq_none (by omega)] at h2
    exact absurd h2 (by simp)
  have hj1 : j - 1 + 1 = j := by omega
  rw [List.chain'_iff_get] at hchain
  refine hchain (j - 1) (by omega) ⟨?_, ?_⟩
  · rw [List.get_eq_getElem]
    have hg := List.getElem?_eq_getElem (show j - 1 < text.length by omega)
    rw [hg, Option.some_inj] at h1
    exact h1
  · rw [List.get_eq_getElem]
    simp only [hj1]
    have hg := List.getElem?_eq_getElem hlen
    rw [hg, Option.some_inj] at h2
    exact h2

/-- Trimming a prefix cut of clean text is the identity once its first and
last characters are known to be non-whitespace. -/
theorem trimJs_take_eq (text : List Char) (k : ℕ) (hk : 0 < k)
    (h0 : Char) (hh0 : text.head? = some h0) (hh0ws : isJsSpace h0 = false)
    (z : Char) (hz : (text.take k).getLast? = some z)
    (hzws : isJsSpace z = false) :
    trimJs (text.take k) = text.take k := by
  refine trimJs_id _ (fun c hc => ?_) (fun c hc => ?_)
  · rw [head?_take text k hk, hh0, Option.some_inj] at hc
    rw [← hc]
    exact hh0ws
  · rw [hz, Option.some_inj] at hc
    rw [← hc]
    exact hzws

/-- Unfolding of the truncation block when the guard holds. -/
theorem truncateToMax_eq (m : ℕ) (text : List Char)
    (h : m ≠ 0 ∧ m < text.length) :
    truncateToMax m text =
      if ((max (lastIndexOf '.' (text.take m)) (max (lastIndexOf '?' (text.take m))
          (lastIndexOf '!' (text.take m))) : ℤ) : ℚ) > (m : ℚ) * (8/10) then
        trimJs (text.take ((max (lastIndexOf '.' (text.take m))
          (max (lastIndexOf '?' (text.take m))
            (lastIndexOf '!' (text.take m)))).toNat + 1))
      else
        trimJs (text.take (if 0 < lastIndexOf ' ' (text.take m) then
          (lastIndexOf ' ' (text.take m)).toNat else m)) := by
  rw [truncateToMax, if_pos h]

/-- Case analysis of the truncation block over clean text: the result never
exceeds the limit and ends at the whole text, exactly at the limit, at a
sentence-terminal punctuation character, or at a word boundary of the
text. -/
theorem truncateToMax_cases (m : ℕ) (text : List Char) (hm : 0 < m)
    (hclean : CleanStr text) :
    (truncateToMax m text).length ≤ m ∧
    (truncateToMax m text = text ∨
     (truncateToMax m text).length = m ∨
     (∃ p, (truncateToMax m text).getLast? = some p ∧
       (p = '.' ∨ p = '?' ∨ p = '!')) ∨
     (truncateToMax m text <+: text ∧
       text[(truncateToMax m text).length]? = some ' ')) := by
  obtain ⟨hmem, hchain, hhead, hlast⟩ := hclean
  by_cases hcond : m ≠ 0 ∧ m < text.length
  case neg =>
    have heq : truncateToMax m text = text := by rw [truncateToMax, if_neg hcond]
    rw [heq]
    have hlen : text.length ≤ m := by
      rcases not_and_or.mp hcond with h | h
      · omega
      · omega
    exact ⟨hlen, Or.inl rfl⟩
  case pos =>
    obtain ⟨hm0, hmlt⟩ := hcond
    have htlen : (text.take m).length = m := by
      rw [List.length_take]
      omega
    obtain ⟨h0, hh0⟩ : ∃ c, text.head? = some c := by
      cases text with
      | nil => simp at hmlt
      | cons a t => exact ⟨a, rfl⟩
    have hh0ws : isJsSpace h0 = false := by
      by_contra hws
      rw [Bool.not_eq_false] at hws
      have hm0' : h0 ∈ text := List.mem_of_mem_head? (by rw [hh0]; rfl)
      exact hhead h0 hh0 ((hmem h0 hm0').1 hws)
    rw [truncateToMax_eq m text ⟨hm0, hmlt⟩]
    by_cases hgt : ((max (lastIndexOf '.' (text.take m))
        (max (lastIndexOf '?' (text.take m))
          (lastIndexOf '!' (text.take m))) : ℤ) : ℚ) > (m : ℚ) * (8/10)
    · -- punctuation branch
      rw [if_pos hgt]
      have hLPpos : 0 < max (lastIndexOf '.' (text.take m))
          (max (lastIndexOf '?' (text.take m)) (lastIndexOf '!' (text.take m))) := by
        have h1 : (8/10 : ℚ) ≤ (m : ℚ) * (8/10) := by
          have hm1 : (1 : ℚ) ≤ (m : ℚ) := by exact_mod_cast hm
          nlinarith
        have h2 : (0 : ℚ) < ((max (lastIndexOf '.' (text.take m))
            (max (lastIndexOf '?' (text.take m))
              (lastIndexOf '!' (text.take m))) : ℤ) : ℚ) := by linarith
        exact_mod_cast h2
      obtain ⟨pc, hpc, hpcl⟩ : ∃ pc, (pc = '.' ∨ pc = '?' ∨ pc = '!') ∧
          lastIndexOf pc (text.take m) = max (lastIndexOf '.' (text.take m))
            (max (lastIndexOf '?' (text.take m)) (lastIndexOf '!' (text.take m))) := by
        rcases max_choice (lastIndexOf '.' (text.take m))
            (max (lastIndexOf '?' (text.take m)) (lastIndexOf '!' (text.take m))) with
          h | h
        · exact ⟨'.', Or.inl rfl, h.symm⟩
        · rcases max_choice (lastIndexOf '?' (text.take m))
              (lastIndexOf '!' (text.take m)) with h2 | h2
          · refine ⟨'?', Or.inr (Or.inl rfl), ?_⟩
            rw [h, h2]
          · refine ⟨'!', Or.inr (Or.inr rfl), ?_⟩
            rw [h, h2]
      obtain ⟨i, hi⟩ : ∃ i, lastIndexOfAux pc (text.take m) = some i := by
        cases haux : lastIndexOfAux pc (text.take m) with
        | none =>
          have hval : lastIndexOf pc (text.take m) = -1 := by
            rw [lastIndexOf, haux]
          rw [hval] at hpcl
          omega
        | some j => exact ⟨j, rfl⟩
      have hieq : (i : ℤ) = max (lastIndexOf '.' (text.take m))
          (max (lastIndexOf '?' (text.take m)) (lastIndexOf '!' (text.take m))) := by
        rw [lastIndexOf, hi] at hpcl
        exact hpcl
      obtain ⟨hilen, hic⟩ := lastIndexOfAux_some pc (text.take m) i hi
      rw [htlen] at hilen
      have hic' : text[i]? = some pc := by
        rw [List.getElem?_take, if_pos hilen] at hic
        exact hic
      have hLPtoNat : (max (lastIndexOf '.' (text.take m))
          (max (lastIndexOf '?' (text.take m))
            (lastIndexOf '!' (text.take m)))).toNat = i := by
        omega
      have hlastc : (text.take (i + 1)).getLast? = some pc :=
        getLast?_take_succ text i pc hic'
      have hpcws : isJsSpace pc = false := by
        rcases hpc with h | h | h <;> rw [h] <;> decide
      have htrim : trimJs (text.take (i + 1)) = text.take (i + 1) :=
        trimJs_take_eq text (i + 1) (by omega) h0 hh0 hh0ws pc hlastc hpcws
      rw [hLPtoNat, htrim]
      constructor
      · rw [List.length_take]
        omega
      · exact Or.inr (Or.inr (Or.inl ⟨pc, hlastc, hpc⟩))
    · -- word-boundary / hard-cut branch
      rw [if_neg hgt]
      by_cases hls : 0 < lastIndexOf ' ' (text.take m)
      · -- a space exists at a positive index
        rw [if_pos hls]
        obtain ⟨j, haux⟩ : ∃ j, lastIndexOfAux ' ' (text.take m) = some j := by
          cases haux2 : lastIndexOfAux ' ' (text.take m) with
          | none =>
            have hval : lastIndexOf ' ' (text.take m) = -1 := by
              rw [lastIndexOf, haux2]
            rw [hval] at hls
            omega
          | some j => exact ⟨j, rfl⟩
        have hlseq : lastIndexOf ' ' (text.take m) = (j : ℤ) := by
          rw [lastIndexOf, haux]
        have hjpos : 0 < j := by
          rw [hlseq] at hls
          exact_mod_cast hls
        obtain ⟨hjlen, hjc⟩ := lastIndexOfAux_some ' ' (text.take m) j haux
        rw [htlen] at hjlen
        have hjc' : text[j]? = some ' ' := by
          rw [List.getElem?_take, if_pos hjlen] at hjc
          exact hjc
        have htoNat : (lastIndexOf ' ' (text.take m)).toNat = j := by
          rw [hlseq]
          omega
        have hj1len : j - 1 < text.length := by omega
        obtain ⟨z, hzeq⟩ : ∃ z, text[j - 1]? = some z :=
          ⟨_, List.getElem?_eq_getElem hj1len⟩
        have hzws : isJsSpace z = false := by
          by_contra hws
          rw [Bool.not_eq_false] at hws
          have hzmem : z ∈ text := List.getElem?_mem hzeq
          have hzsp := (hmem z hzmem).1 hws
          rw [hzsp] at hzeq
          exact chain'_no_double_space text hchain j hjpos hzeq hjc'
        have hlastz : (text.take j).getLast? = some z := by
          have hj2 : j - 1 + 1 = j := by omega
          rw [← hj2]
          exact getLast?_take_succ text (j - 1) z hzeq
        have htrim : trimJs (text.take j) = text.take j :=
          trimJs_take_eq text j hjpos h0 hh0 hh0ws z hlastz hzws
        rw [htoNat, htrim]
        constructor
        · rw [List.length_take]
          omega
        · refine Or.inr (Or.inr (Or.inr ⟨List.take_prefix j text, ?_⟩))
          rw [List.length_take]
          have hminj : min j text.length = j := by omega
          rw [hminj]
          exact hjc'
      · -- no space (or only a leading one, impossible on clean text)
        rw [if_neg hls]
        have haux : lastIndexOfAux ' ' (text.take m) = none := by
          cases haux2 : lastIndexOfAux ' ' (text.take m) with
          | none => rfl
          | some j =>
            exfalso
            obtain ⟨hjlen, hjc⟩ := lastIndexOfAux_some ' ' (text.take m) j haux2
            rw [htlen] at hjlen
            have hlseq : lastIndexOf ' ' (text.take m) = (j : ℤ) := by
              rw [lastIndexOf, haux2]
            have hj0 : j = 0 := by
              rw [hlseq] at hls
              omega
            rw [hj0] at hjc
            rw [List.getElem?_take, if_pos (by omega : (0 : ℕ) < m)] at hjc
            rw [← List.head?_eq_getElem?] at hjc
            exact hhead ' ' hjc rfl
        have hnosp : ' ' ∉ text.take m := lastIndexOfAux_none ' ' (text.take m) haux
        have hm1len : m - 1 < text.length := by omega
        obtain ⟨z, hzeq⟩ : ∃ z, text[m - 1]? = some z :=
          ⟨_, List.getElem?_eq_getElem hm1len⟩
        have hzws : isJsSpace z = false := by
          by_contra hws
          rw [Bool.not_eq_false] at hws
          have hzmem : z ∈ text := List.getElem?_mem hzeq
          have hzsp := (hmem z hzmem).1 hws
          have hzmemT : z ∈ text.take m := by
            have hT : (text.take m)[m - 1]? = some z := by
              rw [List.getElem?_take, if_pos (by omega : m - 1 < m)]
              exact hzeq
            exact List.getElem?_mem hT
          rw [hzsp] at hzmemT
          exact hnosp hzmemT
        have hlastz : (text.take m).getLast? = some z := by
          have hm2 : m - 1 + 1 = m := by omega
          rw [← hm2]
          exact getLast?_take_succ text (m - 1) z hzeq
        have htrim : trimJs (text.take m) = text.take m :=
          trimJs_take_eq text m hm h0 hh0 hh0ws z hlastz hzws
        rw [htrim]
        exact ⟨by rw [htlen], Or.inr (Or.inl htlen)⟩

/-- C2: for every input string and positive maxLength, the truncating
normalizer never returns more than maxLength characters, and the result is
the whole normalized text, or ends exactly at maxLength characters, at a
sentence-terminal punctuation character, or at a word boundary (its next
character in the normalized text is a space) — never elsewhere inside a
word. -/
theorem c2_truncation_boundaries (x : List Char) (m : ℕ) (hm : 0 < m) :
    (cleanTextMax x m).length ≤ m ∧
    (cleanTextMax x m = cleanText x ∨
     (cleanTextMax x m).length = m ∨
     (∃ p, (cleanTextMax x m).getLast? = some p ∧
       (p = '.' ∨ p = '?' ∨ p = '!')) ∨
     (cleanTextMax x m <+: cleanText x ∧
       (cleanText x)[(cleanTextMax x m).length]? = some ' ')) := by
  by_cases hx : x = []
  · subst hx
    have h1 : cleanTextMax [] m = [] := by rw [cleanTextMax, if_pos rfl]
    have h2 : cleanText [] = [] := by rw [cleanText, if_pos rfl]
    rw [h1, h2]
    exact ⟨by simp, Or.inl rfl⟩
  · have h1 : cleanTextMax x m = truncateToMax m (normalizeSteps x) := by
      rw [cleanTextMax, if_neg hx]
    have h2 : cleanText x = normalizeSteps x := by rw [cleanText, if_neg hx]
    rw [h1, h2]
    exact truncateToMax_cases m (normalizeSteps x) hm (cleanStr_normalizeSteps x)

/-- C2 witness: truncating a concrete three-word text at 8 characters obeys
the boundary discipline. -/
theorem c2_truncation_boundaries_witness :
    (cleanTextMax ['a', 'b', ' ', 'c', 'd', ' ', 'e', 'f', 'g', 'h'] 8).length ≤ 8 ∧
    (cleanTextMax ['a', 'b', ' ', 'c', 'd', ' ', 'e', 'f', 'g', 'h'] 8 =
       cleanText ['a', 'b', ' ', 'c', 'd', ' ', 'e', 'f', 'g', 'h'] ∨
     (cleanTextMax ['a', 'b', ' ', 'c', 'd', ' ', 'e', 'f', 'g', 'h'] 8).length = 8 ∨
     (∃ p, (cleanTextMax ['a', 'b', ' ', 'c', 'd', ' ', 'e', 'f', 'g', 'h'] 8).getLast? =
         some p ∧ (p = '.' ∨ p = '?' ∨ p = '!')) ∨
     (cleanTextMax ['a', 'b', ' ', 'c', 'd', ' ', 'e', 'f', 'g', 'h'] 8 <+:
        cleanText ['a', 'b', ' ', 'c', 'd', ' ', 'e', 'f', 'g', 'h'] ∧
       (cleanText ['a', 'b', ' ', 'c', 'd', ' ', 'e', 'f', 'g', 'h'])[
         (cleanTextMax ['a', 'b', ' ', 'c', 'd', ' ', 'e', 'f', 'g', 'h'] 8).length]? =
         some ' ')) :=
  c2_truncation_boundaries ['a', 'b', ' ', 'c', 'd', ' ', 'e', 'f', 'g', 'h'] 8
    (by decide)
